import Mathlib

/-!
Shallow embedding of the WSN simulator (`src/streamlit_app.py`).

The core consists of:
* constants `MAX_ENERGY`, `TRANSMISSION_COST`, `RECEPTION_COST`;
* `euclidean_distance` / `connect_nodes` building the geometric graph;
* `simulate_routing`, which calls `networkx.shortest_path` (unweighted
  breadth-first search, raising `NodeNotFound` when an endpoint is not a
  node of the graph and `NetworkXNoPath` when no path exists; only the
  latter is caught by the application) and then deducts MAC-dependent
  energy costs hop by hop, mutating the energy store in place.

Python state mutation is modelled by explicit state passing: the energy
dict becomes a function `Nat → ℤ` and `simulate_routing` returns the new
energy map (and the untouched graph) in its result.  Exceptions become
`Except`.  Positions are rationals; the float comparison
`math.sqrt d2 <= tx_range` is embedded as the exactly equivalent
`0 ≤ tx_range ∧ d2 ≤ tx_range ^ 2` (the square root of a nonnegative
number is `≤ r` iff `r ≥ 0` and the number is `≤ r ^ 2`).
-/

namespace WSN

/-- `MAX_ENERGY = 100` from the source. -/
def MAX_ENERGY : ℤ := 100

/-- `TRANSMISSION_COST = 2` from the source. -/
def TRANSMISSION_COST : ℤ := 2

/-- `RECEPTION_COST = 1` from the source. -/
def RECEPTION_COST : ℤ := 1

/-- A 2-D position, as produced by `generate_nodes`. -/
abbrev Pos := ℚ × ℚ

/-- The square of `euclidean_distance a b` from the source
(`math.sqrt((a[0]-b[0])**2 + (a[1]-b[1])**2)` without the square root,
kept rational so the range comparison stays exact). -/
def euclidean_distance_sq (a b : Pos) : ℚ :=
  (a.1 - b.1) ^ 2 + (a.2 - b.2) ^ 2

/-- A `networkx.Graph` after `G.add_nodes_from(positions)`: a node list
plus a Boolean adjacency.  `connect_nodes` only ever creates edges
between member nodes. -/
structure Graph where
  nodes : List Nat
  adj : Nat → Nat → Bool

/-- `connect_nodes(G, positions, tx_range)` from the source: for every
ordered pair `i ≠ j` of keys of `positions`, add the (undirected) edge
iff `euclidean_distance(positions[i], positions[j]) <= tx_range`, i.e.
iff `0 ≤ tx_range` and the squared distance is `≤ tx_range ^ 2`. -/
def connect_nodes (keys : List Nat) (positions : Nat → Pos) (tx_range : ℚ) : Graph :=
  { nodes := keys
    adj := fun i j =>
      decide (i ∈ keys) && decide (j ∈ keys) && decide (i ≠ j) &&
      decide (0 ≤ tx_range) &&
      decide (euclidean_distance_sq (positions i) (positions j) ≤ tx_range ^ 2) }

/-- The neighbours of `u` in `G` (members of the node list adjacent to `u`). -/
def neighbors (G : Graph) (u : Nat) : List Nat :=
  G.nodes.filter (fun v => G.adj u v)

/-- Breadth-first reachable set: `reach G s k` lists the nodes reachable
from `s` by a path of at most `k` hops (the visited set after `k` BFS
rounds of `networkx`'s unweighted shortest-path search). -/
def reach (G : Graph) (s : Nat) : Nat → List Nat
  | 0 => [s]
  | k + 1 =>
      let r := reach G s k
      r ++ ((r.flatMap (fun u => neighbors G u)).filter (fun v => decide (v ∉ r))).dedup

/-- Smallest `k0` with `k ≤ k0 < k + fuel` such that `t ∈ reach G s k0`
(fuel first, then the current candidate distance `k`). -/
def findDist (G : Graph) (s t : Nat) : Nat → Nat → Option Nat
  | 0, _ => none
  | fuel + 1, k => if t ∈ reach G s k then some k else findDist G s t fuel (k + 1)

/-- Reconstruct a breadth-first path: walk back from `t` through the
`reach` layers, picking any predecessor (the tie-break among shortest
paths is implementation-defined, as in `networkx`). -/
def buildPath (G : Graph) (s : Nat) : Nat → Nat → List Nat
  | 0, t => [t]
  | k + 1, t =>
      if t ∈ reach G s k then buildPath G s k t
      else
        match G.nodes.find? (fun u => G.adj u t && decide (u ∈ reach G s k)) with
        | some u => buildPath G s k u ++ [t]
        | none => [t]

/-- The two `networkx` exceptions that `nx.shortest_path` can raise here:
`NodeNotFound` (an endpoint is not in `G`; NOT caught by
`simulate_routing`) and `NetworkXNoPath` (caught). -/
inductive NxError : Type where
  | nodeNotFound (msg : String)
  | noPath (msg : String)
deriving DecidableEq, Repr

/-- `nx.shortest_path(G, source, target)` (unweighted): `NodeNotFound`
when an endpoint is missing, otherwise some shortest path from `source`
to `target`, or `NetworkXNoPath` when none exists. -/
def shortest_path (G : Graph) (source target : Nat) : Except NxError (List Nat) :=
  if source ∈ G.nodes ∧ target ∈ G.nodes then
    match findDist G source target G.nodes.length 0 with
    | some k => .ok (buildPath G source k target)
    | none =>
        .error (.noPath ("No path between " ++ toString source ++ " and " ++
          toString target ++ "."))
  else
    .error (.nodeNotFound ("Either source " ++ toString source ++ " or target " ++
      toString target ++ " is not in G"))

/-- Pointwise update of the energy dict (`energy[k] = v`). -/
def upd (f : Nat → ℤ) (k : Nat) (v : ℤ) : Nat → ℤ :=
  fun n => if n = k then v else f n

/-- One iteration of the hop loop of `simulate_routing`: the MAC-protocol
branch.  `CSMA` deducts the full costs, `TDMA` the floor-halved costs
(`TRANSMISSION_COST // 2`, `RECEPTION_COST // 2`), any other value
deducts nothing. -/
def applyHop (mac_protocol : String) (energy : Nat → ℤ) (sender receiver : Nat) : Nat → ℤ :=
  if mac_protocol = "CSMA" then
    let e1 := upd energy sender (energy sender - TRANSMISSION_COST)
    upd e1 receiver (e1 receiver - RECEPTION_COST)
  else if mac_protocol = "TDMA" then
    let e1 := upd energy sender (energy sender - TRANSMISSION_COST.fdiv 2)
    upd e1 receiver (e1 receiver - RECEPTION_COST.fdiv 2)
  else energy

/-- The transcript entry `f"{sender} → {receiver}"`. -/
def hopLog (sender receiver : Nat) : String :=
  toString sender ++ " → " ++ toString receiver

/-- The hop list of a path: `(path[i], path[i+1])` for `i < len(path)-1`. -/
def hops (path : List Nat) : List (Nat × Nat) :=
  path.zip path.tail

/-- The hop loop of `simulate_routing`: fold `applyHop` over the hops,
appending one transcript line per hop. -/
def runHops (mac_protocol : String) (energy : Nat → ℤ) (hs : List (Nat × Nat)) :
    (Nat → ℤ) × List String :=
  hs.foldl (fun acc h => (applyHop mac_protocol acc.1 h.1 h.2, acc.2 ++ [hopLog h.1 h.2]))
    (energy, [])

/-- Result of a successful `simulate_routing` call: the returned
`(path, logs)` pair together with the state it leaves behind (the graph,
which the function never writes to, and the mutated energy dict). -/
structure RouteResult where
  path : Option (List Nat)
  logs : List String
  G : Graph
  energy : Nat → ℤ

/-- `simulate_routing(G, source, sink, energy, mac_protocol)` from the
source: compute a shortest path; on `NetworkXNoPath` return
`(None, ["No path found!"])` with the energy untouched; on success run
the hop loop; `NodeNotFound` propagates uncaught. -/
def simulate_routing (G : Graph) (source sink : Nat) (energy : Nat → ℤ)
    (mac_protocol : String) : Except NxError RouteResult :=
  match shortest_path G source sink with
  | .ok path =>
      let r := runHops mac_protocol energy (hops path)
      .ok ⟨some path, r.2, G, r.1⟩
  | .error (.noPath _) => .ok ⟨none, ["No path found!"], G, energy⟩
  | .error e => .error e

/-- MAC-policy cost pair, read off the two branches of the hop loop:
`CSMA ↦ (TRANSMISSION_COST, RECEPTION_COST)`,
`TDMA ↦ (TRANSMISSION_COST // 2, RECEPTION_COST // 2)`, anything else
deducts nothing. -/
def macCosts (mac_protocol : String) : ℤ × ℤ :=
  if mac_protocol = "CSMA" then (TRANSMISSION_COST, RECEPTION_COST)
  else if mac_protocol = "TDMA" then (TRANSMISSION_COST.fdiv 2, RECEPTION_COST.fdiv 2)
  else (0, 0)

/-- Energy one hop `h` takes from node `n`: the transmission cost if `n`
is the sender, plus the reception cost if `n` is the receiver. -/
def hopDelta (mac_protocol : String) (h : Nat × Nat) (n : Nat) : ℤ :=
  (if n = h.1 then (macCosts mac_protocol).1 else 0) +
    (if n = h.2 then (macCosts mac_protocol).2 else 0)

/-- Total energy a hop list takes from node `n`. -/
def pathDelta (mac_protocol : String) (hs : List (Nat × Nat)) (n : Nat) : ℤ :=
  (hs.map (fun h => hopDelta mac_protocol h n)).sum

/-- A path from `s` to `t` in `G`: a nonempty sequence of nodes of `G`
starting at `s`, ending at `t`, with every consecutive pair adjacent. -/
def IsPath (G : Graph) (s t : Nat) (p : List Nat) : Prop :=
  p ≠ [] ∧ p.head? = some s ∧ p.getLast? = some t ∧
    (∀ x ∈ p, x ∈ G.nodes) ∧ List.Chain' (fun a b => G.adj a b = true) p

/-- Boolean edge-chain check, used to decide `IsPath` by evaluation. -/
def chainB (G : Graph) : List Nat → Bool
  | [] => true
  | [_] => true
  | a :: b :: l => G.adj a b && chainB G (b :: l)

theorem chainB_iff (G : Graph) :
    ∀ p, chainB G p = true ↔ List.Chain' (fun a b => G.adj a b = true) p := by
  intro p
  induction p with
  | nil => simp [chainB]
  | cons a l ih =>
      cases l with
      | nil => simp [chainB]
      | cons b l' =>
          rw [List.chain'_cons, ← ih]
          simp [chainB, Bool.and_eq_true]

instance (G : Graph) (s t : Nat) (p : List Nat) : Decidable (IsPath G s t p) :=
  decidable_of_iff (p ≠ [] ∧ p.head? = some s ∧ p.getLast? = some t ∧
    (∀ x ∈ p, x ∈ G.nodes) ∧ chainB G p = true)
    (by rw [IsPath, chainB_iff])

theorem euclidean_distance_sq_symm (a b : Pos) :
    euclidean_distance_sq a b = euclidean_distance_sq b a := by
  unfold euclidean_distance_sq
  ring

theorem euclidean_distance_sq_nonneg (a b : Pos) :
    0 ≤ euclidean_distance_sq a b :=
  add_nonneg (sq_nonneg _) (sq_nonneg _)

theorem reach_zero (G : Graph) (s : Nat) : reach G s 0 = [s] := rfl

theorem reach_succ (G : Graph) (s : Nat) (k : Nat) :
    reach G s (k + 1) =
      reach G s k ++
        (((reach G s k).flatMap (fun u => neighbors G u)).filter
          (fun v => decide (v ∉ reach G s k))).dedup := rfl

theorem reach_subset_succ (G : Graph) (s k : Nat) :
    reach G s k ⊆ reach G s (k + 1) := by
  intro x hx
  rw [reach_succ]
  exact List.mem_append_left _ hx

theorem reach_mono (G : Graph) (s : Nat) {k m : Nat} (h : k ≤ m) :
    reach G s k ⊆ reach G s m := by
  induction m with
  | zero => simp_all
  | succ m ih =>
      rcases Nat.lt_or_ge k (m + 1) with hk | hk
      · exact fun x hx => reach_subset_succ G s m (ih (Nat.lt_succ_iff.mp hk) hx)
      · have : k = m + 1 := le_antisymm h hk
        subst this
        exact fun x hx => hx

theorem self_mem_reach (G : Graph) (s k : Nat) : s ∈ reach G s k :=
  reach_mono G s (Nat.zero_le k) (by simp [reach_zero])

theorem neighbors_subset (G : Graph) (u : Nat) : neighbors G u ⊆ G.nodes :=
  fun _ hv => (List.mem_filter.mp hv).1

theorem IsPath.length_pos {G : Graph} {s t : Nat} {p : List Nat}
    (h : IsPath G s t p) : 1 ≤ p.length :=
  List.length_pos.mpr h.1

theorem IsPath.single {G : Graph} {s : Nat} (hs : s ∈ G.nodes) :
    IsPath G s s [s] := by
  refine ⟨by simp, rfl, rfl, ?_, by simp⟩
  intro x hx
  rw [List.mem_singleton.mp hx]
  exact hs

theorem IsPath.snoc {G : Graph} {s u t : Nat} {q : List Nat}
    (hq : IsPath G s u q) (ha : G.adj u t = true) (ht : t ∈ G.nodes) :
    IsPath G s t (q ++ [t]) := by
  obtain ⟨hne, hh, hl, hmem, hch⟩ := hq
  refine ⟨by simp, ?_, ?_, ?_, ?_⟩
  · cases q with
    | nil => exact absurd rfl hne
    | cons a q' => simpa using hh
  · simp [List.getLast?_concat]
  · intro x hx
    rcases List.mem_append.mp hx with hx | hx
    · exact hmem x hx
    · rw [List.mem_singleton.mp hx]; exact ht
  · rw [List.chain'_append]
    refine ⟨hch, List.chain'_singleton t, ?_⟩
    intro x hx y hy
    rw [hl] at hx
    simp only [Option.mem_def, Option.some.injEq, List.head?_cons] at hx hy
    subst hx
    subst hy
    exact ha

theorem mem_neighbors (G : Graph) (u v : Nat) :
    v ∈ neighbors G u ↔ v ∈ G.nodes ∧ G.adj u v = true := by
  simp [neighbors]

theorem reach_subset_nodes (G : Graph) (s : Nat) (hs : s ∈ G.nodes) (k : Nat) :
    reach G s k ⊆ G.nodes := by
  induction k with
  | zero => simpa [reach_zero] using hs
  | succ k ih =>
      rw [reach_succ]
      intro x hx
      rcases List.mem_append.mp hx with hx | hx
      · exact ih hx
      · have := List.mem_filter.mp (List.mem_dedup.mp hx)
        rcases List.mem_flatMap.mp this.1 with ⟨u, _, hu⟩
        exact neighbors_subset G u hu

theorem mem_reach_succ_iff (G : Graph) (s k x : Nat) :
    x ∈ reach G s (k + 1) ↔
      x ∈ reach G s k ∨ (x ∉ reach G s k ∧ ∃ u ∈ reach G s k, x ∈ neighbors G u) := by
  rw [reach_succ]
  simp only [List.mem_append, List.mem_dedup, List.mem_filter, List.mem_flatMap,
    decide_eq_true_eq]
  tauto

theorem reach_nodup (G : Graph) (s k : Nat) : (reach G s k).Nodup := by
  induction k with
  | zero => simp [reach_zero]
  | succ k ih =>
      rw [reach_succ]
      refine List.Nodup.append ih (List.nodup_dedup _) ?_
      intro x hx hx'
      have := List.mem_filter.mp (List.mem_dedup.mp hx')
      exact (of_decide_eq_true this.2) hx

theorem reach_sound (G : Graph) (s : Nat) (hs : s ∈ G.nodes) :
    ∀ k t, t ∈ reach G s k → ∃ p, IsPath G s t p ∧ p.length ≤ k + 1 := by
  intro k
  induction k with
  | zero =>
      intro t ht
      rw [reach_zero, List.mem_singleton] at ht
      subst ht
      exact ⟨[t], IsPath.single hs, by simp⟩
  | succ k ih =>
      intro t ht
      rcases (mem_reach_succ_iff G s k t).mp ht with ht | ⟨-, u, hu, hn⟩
      · obtain ⟨p, hp, hlen⟩ := ih t ht
        exact ⟨p, hp, hlen.trans (Nat.le_succ _)⟩
      · obtain ⟨q, hq, hlen⟩ := ih u hu
        rcases (mem_neighbors G u t).mp hn with ⟨htn, ha⟩
        refine ⟨q ++ [t], hq.snoc ha htn, ?_⟩
        simpa using Nat.add_le_add_right hlen 1

theorem eq_append_last {α : Type} {p : List α} {t : α} (h : p.getLast? = some t) :
    ∃ q, p = q ++ [t] := by
  induction p with
  | nil => simp at h
  | cons a p ih =>
      cases p with
      | nil =>
          simp only [List.getLast?_singleton, Option.some.injEq] at h
          exact ⟨[], by simp [h]⟩
      | cons b p' =>
          rw [List.getLast?_cons_cons] at h
          obtain ⟨q, hq⟩ := ih h
          exact ⟨a :: q, by simp [hq]⟩

theorem reach_complete_aux (G : Graph) (s : Nat) :
    ∀ n t p, p.length = n → IsPath G s t p → t ∈ reach G s (p.length - 1) := by
  intro n
  induction n using Nat.strong_induction_on with
  | _ n ih =>
      intro t p hn hp
      obtain ⟨hne, hh, hl, hmem, hch⟩ := hp
      obtain ⟨q, rfl⟩ := eq_append_last hl
      cases q with
      | nil =>
          simp only [List.nil_append, List.head?_cons, Option.some.injEq] at hh
          subst hh
          simp [reach_zero]
      | cons a q' =>
          obtain ⟨u, hu⟩ : ∃ u, (a :: q').getLast? = some u :=
            ⟨(a :: q').getLast (by simp), (List.getLast?_eq_getLast _ (by simp))⟩
          have hch2 := List.chain'_append.mp hch
          have hadj : G.adj u t = true := by
            refine hch2.2.2 u ?_ t ?_
            · rw [Option.mem_def, hu]
            · simp
          have hqpath : IsPath G s u (a :: q') := by
            refine ⟨by simp, ?_, hu, ?_, hch2.1⟩
            · simpa using hh
            · intro x hx
              exact hmem x (List.mem_append_left _ hx)
          have hlt : (a :: q').length < n := by
            subst hn
            simp
          have hureach := ih _ hlt u (a :: q') rfl hqpath
          have hq1 : (a :: q').length - 1 + 1 = (a :: q').length := by simp
          have hgoal : t ∈ reach G s ((a :: q').length - 1 + 1) := by
            rw [mem_reach_succ_iff]
            by_cases htr : t ∈ reach G s ((a :: q').length - 1)
            · exact Or.inl htr
            · refine Or.inr ⟨htr, u, hureach, (mem_neighbors G u t).mpr ⟨?_, hadj⟩⟩
              exact hmem t (by simp)
          rw [hq1] at hgoal
          simpa using hgoal

theorem reach_complete {G : Graph} {s t : Nat} {p : List Nat} (hp : IsPath G s t p) :
    t ∈ reach G s (p.length - 1) :=
  reach_complete_aux G s p.length t p rfl hp

theorem not_nodup_split {α : Type} [DecidableEq α] :
    ∀ l : List α, ¬ l.Nodup → ∃ (l₁ : List α) (x : α) (l₂ l₃ : List α),
      l = l₁ ++ x :: (l₂ ++ x :: l₃) := by
  intro l
  induction l with
  | nil => intro h; exact absurd List.nodup_nil h
  | cons a l ih =>
      intro h
      rw [List.nodup_cons] at h
      by_cases ha : a ∈ l
      · obtain ⟨l₂, l₃, hl⟩ := List.append_of_mem ha
        exact ⟨[], a, l₂, l₃, by simp [hl]⟩
      · have : ¬ l.Nodup := fun hn => h ⟨ha, hn⟩
        obtain ⟨l₁, x, l₂, l₃, hl⟩ := ih this
        exact ⟨a :: l₁, x, l₂, l₃, by simp [hl]⟩

theorem chain'_of_split {G : Graph} {l₁ l₂ l₃ : List Nat} {x : Nat}
    (h : List.Chain' (fun a b => G.adj a b = true) (l₁ ++ x :: (l₂ ++ x :: l₃))) :
    List.Chain' (fun a b => G.adj a b = true) (l₁ ++ x :: l₃) := by
  obtain ⟨h1, h2, hlink⟩ := List.chain'_append.mp h
  have h2' : List.Chain' (fun a b => G.adj a b = true) ((x :: l₂) ++ (x :: l₃)) := by
    simpa using h2
  obtain ⟨-, h3, -⟩ := List.chain'_append.mp h2'
  refine List.chain'_append.mpr ⟨h1, h3, ?_⟩
  intro a ha b hb
  exact hlink a ha b hb

theorem getLast?_append_cons_eq {α : Type} (l₁ : List α) (a : α) (l₂ : List α) :
    (l₁ ++ a :: l₂).getLast? = (a :: l₂).getLast? := by
  obtain ⟨b, hb⟩ : ∃ b, (a :: l₂).getLast? = some b :=
    ⟨(a :: l₂).getLast (by simp), List.getLast?_eq_getLast _ (by simp)⟩
  rw [List.getLast?_append, hb]
  rfl

theorem exists_nodup_path {G : Graph} {s t : Nat} :
    ∀ n p, p.length = n → IsPath G s t p →
      ∃ q, IsPath G s t q ∧ q.Nodup ∧ q.length ≤ p.length := by
  intro n
  induction n using Nat.strong_induction_on with
  | _ n ih =>
      intro p hn hp
      by_cases hd : p.Nodup
      · exact ⟨p, hp, hd, le_refl _⟩
      · obtain ⟨l₁, x, l₂, l₃, rfl⟩ := not_nodup_split p hd
        obtain ⟨hne, hh, hl, hmem, hch⟩ := hp
        have hp' : IsPath G s t (l₁ ++ x :: l₃) := by
          refine ⟨by simp, ?_, ?_, ?_, chain'_of_split hch⟩
          · cases l₁ with
            | nil => simpa using hh
            | cons a l₁' => simpa using hh
          · rw [getLast?_append_cons_eq] at hl ⊢
            have : (x :: (l₂ ++ x :: l₃)) = (x :: l₂) ++ (x :: l₃) := by simp
            rw [this, getLast?_append_cons_eq] at hl
            exact hl
          · intro y hy
            refine hmem y ?_
            rcases List.mem_append.mp hy with hy | hy
            · exact List.mem_append_left _ hy
            · rcases List.mem_cons.mp hy with rfl | hy
              · exact List.mem_append_right _ (List.mem_cons_self _ _)
              · refine List.mem_append_right _ ?_
                exact List.mem_cons_of_mem _ (List.mem_append_right _
                  (List.mem_cons_of_mem _ hy))
        have hlen : (l₁ ++ x :: l₃).length < n := by
          subst hn
          simp only [List.length_append, List.length_cons]
          omega
        obtain ⟨q, hq, hqd, hql⟩ := ih _ hlen (l₁ ++ x :: l₃) rfl hp'
        refine ⟨q, hq, hqd, hql.trans ?_⟩
        subst hn
        exact le_of_lt hlen

theorem nodup_path_length_le {G : Graph} {q : List Nat} (hN : G.nodes.Nodup)
    (hq : q.Nodup) (hsub : ∀ x ∈ q, x ∈ G.nodes) : q.length ≤ G.nodes.length := by
  have h1 : q.toFinset.card = q.length := List.toFinset_card_of_nodup hq
  have h2 : G.nodes.toFinset.card = G.nodes.length := List.toFinset_card_of_nodup hN
  have h3 : q.toFinset ⊆ G.nodes.toFinset := by
    intro x hx
    rw [List.mem_toFinset] at hx ⊢
    exact hsub x hx
  calc q.length = q.toFinset.card := h1.symm
    _ ≤ G.nodes.toFinset.card := Finset.card_le_card h3
    _ = G.nodes.length := h2

theorem findDist_some (G : Graph) (s t : Nat) :
    ∀ fuel k k0, findDist G s t fuel k = some k0 →
      t ∈ reach G s k0 ∧ k ≤ k0 ∧ ∀ j, k ≤ j → j < k0 → t ∉ reach G s j := by
  intro fuel
  induction fuel with
  | zero => intro k k0 h; simp [findDist] at h
  | succ fuel ih =>
      intro k k0 h
      simp only [findDist] at h
      by_cases hm : t ∈ reach G s k
      · rw [if_pos hm] at h
        cases h
        exact ⟨hm, le_refl k, fun j hj1 hj2 =>
          absurd (Nat.lt_of_le_of_lt hj1 hj2) (Nat.lt_irrefl k)⟩
      · rw [if_neg hm] at h
        obtain ⟨h1, h2, h3⟩ := ih (k + 1) k0 h
        refine ⟨h1, Nat.le_trans (Nat.le_succ k) h2, ?_⟩
        intro j hj1 hj2
        rcases Nat.eq_or_lt_of_le hj1 with rfl | hj
        · exact hm
        · exact h3 j hj hj2

theorem findDist_some_of_mem (G : Graph) (s t : Nat) :
    ∀ fuel k j, k ≤ j → j < k + fuel → t ∈ reach G s j →
      ∃ k0, findDist G s t fuel k = some k0 := by
  intro fuel
  induction fuel with
  | zero => intro k j h1 h2 _; omega
  | succ fuel ih =>
      intro k j h1 h2 h3
      simp only [findDist]
      by_cases hm : t ∈ reach G s k
      · exact ⟨k, by rw [if_pos hm]⟩
      · rw [if_neg hm]
        have hkj : k ≠ j := by rintro rfl; exact hm h3
        exact ih (k + 1) j (by omega) (by omega) h3

theorem buildPath_sound (G : Graph) (s : Nat) (hs : s ∈ G.nodes) :
    ∀ k t, t ∈ reach G s k →
      IsPath G s t (buildPath G s k t) ∧ (buildPath G s k t).length ≤ k + 1 := by
  intro k
  induction k with
  | zero =>
      intro t ht
      rw [reach_zero, List.mem_singleton] at ht
      subst ht
      exact ⟨IsPath.single hs, by simp [buildPath]⟩
  | succ k ih =>
      intro t ht
      by_cases hm : t ∈ reach G s k
      · have heq : buildPath G s (k + 1) t = buildPath G s k t := by
          simp only [buildPath, if_pos hm]
        rw [heq]
        obtain ⟨h1, h2⟩ := ih t hm
        exact ⟨h1, h2.trans (Nat.le_succ _)⟩
      · rcases (mem_reach_succ_iff G s k t).mp ht with h | ⟨-, u, hu, hn⟩
        · exact absurd h hm
        · obtain ⟨u0, hfind⟩ : ∃ u0,
              G.nodes.find? (fun v => G.adj v t && decide (v ∈ reach G s k)) = some u0 := by
            rw [← Option.isSome_iff_exists, List.find?_isSome]
            refine ⟨u, reach_subset_nodes G s hs k hu, ?_⟩
            rw [Bool.and_eq_true, decide_eq_true_eq]
            exact ⟨((mem_neighbors G u t).mp hn).2, hu⟩
          have hp0 := List.find?_some hfind
          rw [Bool.and_eq_true, decide_eq_true_eq] at hp0
          obtain ⟨ha0, hr0⟩ := hp0
          obtain ⟨hq, hlen⟩ := ih u0 hr0
          have heq : buildPath G s (k + 1) t = buildPath G s k u0 ++ [t] := by
            simp only [buildPath, if_neg hm, hfind]
          rw [heq]
          have htn : t ∈ G.nodes := ((mem_neighbors G u t).mp hn).1
          refine ⟨hq.snoc ha0 htn, ?_⟩
          simpa using Nat.add_le_add_right hlen 1

theorem shortest_path_spec (G : Graph) (s t : Nat) (hs : s ∈ G.nodes) (ht : t ∈ G.nodes)
    (hN : G.nodes.Nodup) {p : List Nat} (hp : IsPath G s t p) :
    ∃ q, shortest_path G s t = .ok q ∧ IsPath G s t q ∧
      ∀ p1, IsPath G s t p1 → q.length ≤ p1.length := by
  obtain ⟨p', hp', hd', hl'⟩ := exists_nodup_path p.length p rfl hp
  have hple : p'.length ≤ G.nodes.length := nodup_path_length_le hN hd' hp'.2.2.2.1
  have hmem := reach_complete hp'
  have h1le : 1 ≤ p'.length := hp'.length_pos
  obtain ⟨k0, hk0⟩ := findDist_some_of_mem G s t G.nodes.length 0 (p'.length - 1)
      (Nat.zero_le _) (by omega) hmem
  obtain ⟨hreach, -, hmin⟩ := findDist_some G s t G.nodes.length 0 k0 hk0
  obtain ⟨hqpath, hqlen⟩ := buildPath_sound G s hs k0 t hreach
  refine ⟨buildPath G s k0 t, ?_, hqpath, ?_⟩
  · unfold shortest_path
    rw [if_pos ⟨hs, ht⟩, hk0]
  · intro p1 hp1
    have h1 := reach_complete hp1
    have hk0le : k0 ≤ p1.length - 1 := by
      by_contra hcon
      exact hmin (p1.length - 1) (Nat.zero_le _) (by omega) h1
    have h2 := hp1.length_pos
    omega

theorem no_path_of_findDist_none (G : Graph) (s t : Nat)
    (hN : G.nodes.Nodup) (h : findDist G s t G.nodes.length 0 = none) :
    ∀ p, ¬ IsPath G s t p := by
  intro p hp
  obtain ⟨p', hp', hd', -⟩ := exists_nodup_path p.length p rfl hp
  have hple : p'.length ≤ G.nodes.length := nodup_path_length_le hN hd' hp'.2.2.2.1
  have h1le : 1 ≤ p'.length := hp'.length_pos
  obtain ⟨k0, hk0⟩ := findDist_some_of_mem G s t G.nodes.length 0 (p'.length - 1)
      (Nat.zero_le _) (by omega) (reach_complete hp')
  rw [h] at hk0
  simp at hk0

theorem macCosts_nonneg (mac : String) : 0 ≤ (macCosts mac).1 ∧ 0 ≤ (macCosts mac).2 := by
  unfold macCosts
  by_cases h1 : mac = "CSMA"
  · rw [if_pos h1]
    exact ⟨by decide, by decide⟩
  · rw [if_neg h1]
    by_cases h2 : mac = "TDMA"
    · rw [if_pos h2]
      exact ⟨by decide, by decide⟩
    · rw [if_neg h2]
      exact ⟨le_refl 0, le_refl 0⟩

theorem applyHop_eq (mac : String) (e : Nat → ℤ) (u v n : Nat) :
    applyHop mac e u v n = e n - hopDelta mac (u, v) n := by
  by_cases h1 : mac = "CSMA"
  · simp only [applyHop, hopDelta, macCosts, upd, if_pos h1]
    by_cases hv : n = v <;> by_cases hu : n = u <;>
      by_cases hvu : v = u <;> simp_all <;> ring
  · by_cases h2 : mac = "TDMA"
    · simp only [applyHop, hopDelta, macCosts, upd, if_pos h2, if_neg h1]
      by_cases hv : n = v <;> by_cases hu : n = u <;>
        by_cases hvu : v = u <;> simp_all <;> ring
    · simp only [applyHop, hopDelta, macCosts, upd, if_neg h1, if_neg h2, ite_self]
      ring

theorem runHops_foldl_energy (mac : String) :
    ∀ (hs : List (Nat × Nat)) (e : Nat → ℤ) (logs : List String) (n : Nat),
      ((hs.foldl (fun acc h => (applyHop mac acc.1 h.1 h.2, acc.2 ++ [hopLog h.1 h.2]))
        (e, logs)).1) n = e n - pathDelta mac hs n := by
  intro hs
  induction hs with
  | nil =>
      intro e logs n
      simp [pathDelta]
  | cons h hs ih =>
      intro e logs n
      rw [List.foldl_cons, ih, applyHop_eq]
      simp only [pathDelta, List.map_cons, List.sum_cons]
      ring

theorem runHops_foldl_logs (mac : String) :
    ∀ (hs : List (Nat × Nat)) (e : Nat → ℤ) (logs : List String),
      ((hs.foldl (fun acc h => (applyHop mac acc.1 h.1 h.2, acc.2 ++ [hopLog h.1 h.2]))
        (e, logs)).2) = logs ++ hs.map (fun h => hopLog h.1 h.2) := by
  intro hs
  induction hs with
  | nil =>
      intro e logs
      simp
  | cons h hs ih =>
      intro e logs
      rw [List.foldl_cons, ih]
      simp

theorem runHops_energy (mac : String) (e : Nat → ℤ) (hs : List (Nat × Nat)) (n : Nat) :
    (runHops mac e hs).1 n = e n - pathDelta mac hs n :=
  runHops_foldl_energy mac hs e [] n

theorem runHops_logs (mac : String) (e : Nat → ℤ) (hs : List (Nat × Nat)) :
    (runHops mac e hs).2 = hs.map (fun h => hopLog h.1 h.2) := by
  unfold runHops
  simpa using runHops_foldl_logs mac hs e []

theorem hopDelta_nonneg (mac : String) (h : Nat × Nat) (n : Nat) : 0 ≤ hopDelta mac h n := by
  unfold hopDelta
  refine add_nonneg ?_ ?_
  · split_ifs
    · exact (macCosts_nonneg mac).1
    · exact le_refl 0
  · split_ifs
    · exact (macCosts_nonneg mac).2
    · exact le_refl 0

theorem hopDelta_eq_zero (mac : String) (h : Nat × Nat) (n : Nat)
    (h1 : n ≠ h.1) (h2 : n ≠ h.2) : hopDelta mac h n = 0 := by
  unfold hopDelta
  rw [if_neg h1, if_neg h2, add_zero]

theorem pathDelta_nonneg (mac : String) (hs : List (Nat × Nat)) (n : Nat) :
    0 ≤ pathDelta mac hs n := by
  unfold pathDelta
  induction hs with
  | nil => simp
  | cons h hs ih =>
      rw [List.map_cons, List.sum_cons]
      exact add_nonneg (hopDelta_nonneg mac h n) ih

theorem pathDelta_eq_zero (mac : String) (n : Nat) :
    ∀ hs : List (Nat × Nat), (∀ x ∈ hs, n ≠ x.1 ∧ n ≠ x.2) → pathDelta mac hs n = 0 := by
  intro hs
  induction hs with
  | nil => intro _; simp [pathDelta]
  | cons h hs ih =>
      intro hmem
      have h0 := hmem h (List.mem_cons_self _ _)
      unfold pathDelta
      rw [List.map_cons, List.sum_cons, hopDelta_eq_zero mac h n h0.1 h0.2, zero_add]
      exact ih fun x hx => hmem x (List.mem_cons_of_mem _ hx)

theorem hops_mem {p : List Nat} {h : Nat × Nat} (hm : h ∈ hops p) : h.1 ∈ p ∧ h.2 ∈ p := by
  unfold hops at hm
  obtain ⟨a, b⟩ := h
  obtain ⟨h1, h2⟩ := List.of_mem_zip hm
  exact ⟨h1, List.mem_of_mem_tail h2⟩

theorem hops_length (p : List Nat) : (hops p).length = p.length - 1 := by
  unfold hops
  rw [List.length_zip, List.length_tail]
  omega

theorem sum_map_add_int {α : Type} (l : List α) (f g : α → ℤ) :
    (l.map (fun x => f x + g x)).sum = (l.map f).sum + (l.map g).sum := by
  induction l with
  | nil => simp
  | cons a l ih =>
      simp only [List.map_cons, List.sum_cons, ih]
      ring

theorem sum_indicator_zero (a : Nat) (c : ℤ) :
    ∀ l : List Nat, a ∉ l → (l.map (fun n => if n = a then c else 0)).sum = 0 := by
  intro l
  induction l with
  | nil => intro _; simp
  | cons b l ih =>
      intro h
      rw [List.map_cons, List.sum_cons, if_neg, ih (fun hm => h (List.mem_cons_of_mem _ hm)),
        add_zero]
      intro hba
      exact h (by rw [← hba]; exact List.mem_cons_self _ _)

theorem sum_indicator (a : Nat) (c : ℤ) :
    ∀ l : List Nat, l.Nodup → a ∈ l → (l.map (fun n => if n = a then c else 0)).sum = c := by
  intro l
  induction l with
  | nil => intro _ h; simp at h
  | cons b l ih =>
      intro hd hm
      rw [List.nodup_cons] at hd
      rcases List.mem_cons.mp hm with rfl | hm'
      · rw [List.map_cons, List.sum_cons, if_pos rfl, sum_indicator_zero a c l hd.1, add_zero]
      · have hba : ¬ (b = a) := fun h => hd.1 (by rw [h]; exact hm')
        rw [List.map_cons, List.sum_cons, if_neg hba, zero_add]
        exact ih hd.2 hm'

theorem sum_nodes_hopDelta (G : Graph) (hN : G.nodes.Nodup) (mac : String)
    (h : Nat × Nat) (h1 : h.1 ∈ G.nodes) (h2 : h.2 ∈ G.nodes) :
    (G.nodes.map (fun n => hopDelta mac h n)).sum = (macCosts mac).1 + (macCosts mac).2 := by
  unfold hopDelta
  rw [sum_map_add_int, sum_indicator h.1 _ G.nodes hN h1, sum_indicator h.2 _ G.nodes hN h2]

theorem sum_nodes_pathDelta (G : Graph) (hN : G.nodes.Nodup) (mac : String) :
    ∀ hs : List (Nat × Nat), (∀ x ∈ hs, x.1 ∈ G.nodes ∧ x.2 ∈ G.nodes) →
      (G.nodes.map (fun n => pathDelta mac hs n)).sum
        = (hs.length : ℤ) * ((macCosts mac).1 + (macCosts mac).2) := by
  intro hs
  induction hs with
  | nil =>
      intro _
      simp [pathDelta]
  | cons h hs ih =>
      intro hmem
      have hsplit : (fun n => pathDelta mac (h :: hs) n)
          = fun n => hopDelta mac h n + pathDelta mac hs n := by
        funext n
        simp [pathDelta]
      rw [hsplit, sum_map_add_int,
        sum_nodes_hopDelta G hN mac h (hmem h (List.mem_cons_self _ _)).1
          (hmem h (List.mem_cons_self _ _)).2,
        ih fun x hx => hmem x (List.mem_cons_of_mem _ hx)]
      push_cast [List.length_cons]
      ring

theorem simulate_routing_ok (G : Graph) (s t : Nat) (energy : Nat → ℤ) (mac : String)
    {q : List Nat} (h : shortest_path G s t = .ok q) :
    simulate_routing G s t energy mac =
      .ok ⟨some q, (hops q).map (fun x => hopLog x.1 x.2), G,
        fun n => energy n - pathDelta mac (hops q) n⟩ := by
  unfold simulate_routing
  rw [h]
  have he : (runHops mac energy (hops q)).1 = fun n => energy n - pathDelta mac (hops q) n := by
    funext n
    exact runHops_energy mac energy (hops q) n
  have hl : (runHops mac energy (hops q)).2 = (hops q).map (fun x => hopLog x.1 x.2) :=
    runHops_logs mac energy (hops q)
  simp [he, hl]

theorem shortest_of_findDist (G : Graph) (s t : Nat) (p : List Nat)
    (h : findDist G s t G.nodes.length 0 = some (p.length - 1)) :
    ∀ q, IsPath G s t q → p.length ≤ q.length := by
  intro q hq
  obtain ⟨-, -, hmin⟩ := findDist_some G s t G.nodes.length 0 (p.length - 1) h
  have h1 := reach_complete hq
  have h2 := hq.length_pos
  by_contra hcon
  push_neg at hcon
  exact hmin (q.length - 1) (Nat.zero_le _) (by omega) h1

theorem sqrt_le_iff_sq_le {d r : ℝ} (hd : 0 ≤ d) (hr : 0 ≤ r) :
    Real.sqrt d ≤ r ↔ d ≤ r ^ 2 := by
  constructor
  · intro h
    calc d = Real.sqrt d ^ 2 := by rw [Real.sq_sqrt hd]
    _ ≤ r ^ 2 := by
        apply pow_le_pow_left (Real.sqrt_nonneg d) h
  · intro h
    calc Real.sqrt d ≤ Real.sqrt (r ^ 2) := Real.sqrt_le_sqrt h
    _ = r := Real.sqrt_sq hr

theorem connect_adj_imp (keys : List Nat) (positions : Nat → Pos) (tx_range : ℚ)
    {i j : Nat} (h : (connect_nodes keys positions tx_range).adj i j = true) :
    (connect_nodes keys positions tx_range).adj j i = true := by
  unfold connect_nodes at h ⊢
  simp only [Bool.and_eq_true, decide_eq_true_eq] at h ⊢
  obtain ⟨⟨⟨⟨hi, hj⟩, hij⟩, hr⟩, hd⟩ := h
  exact ⟨⟨⟨⟨hj, hi⟩, Ne.symm hij⟩, hr⟩, by rwa [euclidean_distance_sq_symm]⟩

theorem pathDelta_unknown (mac : String) (h1 : mac ≠ "CSMA") (h2 : mac ≠ "TDMA")
    (n : Nat) : ∀ hs : List (Nat × Nat), pathDelta mac hs n = 0 := by
  have hc : macCosts mac = (0, 0) := by
    unfold macCosts
    rw [if_neg h1, if_neg h2]
  intro hs
  induction hs with
  | nil => simp [pathDelta]
  | cons h hs ih =>
      unfold pathDelta at ih ⊢
      rw [List.map_cons, List.sum_cons, ih]
      unfold hopDelta
      rw [hc]
      simp

/-- The concrete three-node line scenario from the spec: nodes 0, 1, 2 at
positions (0,0), (1,0), (2,0). -/
def demoPositions : Nat → Pos :=
  fun n => if n = 0 then (0, 0) else if n = 1 then (1, 0) else (2, 0)

/-- The demo topology: `connect_nodes` over the three demo positions with
transmission range 1.5, which links 0–1 and 1–2 but not 0–2. -/
def demoGraph : Graph := connect_nodes [0, 1, 2] demoPositions (3 / 2)

/-- The demo topology written out combinatorially (edges 0–1 and 1–2
only), with a rational-arithmetic-free adjacency so that it evaluates
inside the kernel. -/
def lineGraph : Graph :=
  { nodes := [0, 1, 2]
    adj := fun i j =>
      (i == 0 && j == 1) || (i == 1 && j == 0) || (i == 1 && j == 2) || (i == 2 && j == 1) }

/-- Two isolated nodes: a graph whose two nodes lie in disjoint
components (as produced e.g. by `connect_nodes` with range 0). -/
def twoIslandGraph : Graph :=
  { nodes := [0, 1]
    adj := fun _ _ => false }

theorem demoGraph_eq_lineGraph : demoGraph = lineGraph := by
  have h : ∀ i j, demoGraph.adj i j = lineGraph.adj i j := by
    intro i j
    by_cases hi : i ∈ ([0, 1, 2] : List Nat)
    · by_cases hj : j ∈ ([0, 1, 2] : List Nat)
      · fin_cases hi <;> fin_cases hj <;>
          · simp only [demoGraph, lineGraph, connect_nodes, demoPositions,
              euclidean_distance_sq]
            norm_num
      · simp only [List.mem_cons, List.not_mem_nil, or_false, not_or] at hj
        obtain ⟨hj0, hj1, hj2⟩ := hj
        simp [demoGraph, lineGraph, connect_nodes, hj0, hj1, hj2]
    · simp only [List.mem_cons, List.not_mem_nil, or_false, not_or] at hi
      obtain ⟨hi0, hi1, hi2⟩ := hi
      simp [demoGraph, lineGraph, connect_nodes, hi0, hi1, hi2]
  have hadj : demoGraph.adj = lineGraph.adj := funext fun i => funext fun j => h i j
  show Graph.mk demoGraph.nodes demoGraph.adj = lineGraph
  rw [hadj]
  rfl

/-- C2: for every graph whose node list has no duplicates and every
source and sink of the graph between which a path exists, the path
returned by `simulate_routing` starts at the source, ends at the sink,
steps only along edges of the graph, stays inside the node set, and has
minimal hop count among all source-to-sink paths. -/
theorem C2_returns_shortest_valid_path (G : Graph) (source sink : Nat)
    (energy : Nat → ℤ) (mac_protocol : String)
    (hs : source ∈ G.nodes) (ht : sink ∈ G.nodes) (hN : G.nodes.Nodup)
    (p : List Nat) (hp : IsPath G source sink p) :
    ∃ r q, simulate_routing G source sink energy mac_protocol = .ok r ∧
      r.path = some q ∧ q.head? = some source ∧ q.getLast? = some sink ∧
      List.Chain' (fun a b => G.adj a b = true) q ∧ (∀ x ∈ q, x ∈ G.nodes) ∧
      ∀ p1, IsPath G source sink p1 → q.length ≤ p1.length := by
  obtain ⟨q, hsp, hq, hqmin⟩ := shortest_path_spec G source sink hs ht hN hp
  exact ⟨_, q, simulate_routing_ok G source sink energy mac_protocol hsp, rfl,
    hq.2.1, hq.2.2.1, hq.2.2.2.2, hq.2.2.2.1, hqmin⟩

/-- C2 witness: the demo line graph routes 0 → 2 through a valid
shortest path. -/
theorem C2_witness :
    (0 ∈ lineGraph.nodes) ∧ (2 ∈ lineGraph.nodes) ∧ lineGraph.nodes.Nodup ∧
      IsPath lineGraph 0 2 [0, 1, 2] ∧
      (∃ r q, simulate_routing lineGraph 0 2 (fun _ => MAX_ENERGY) "CSMA" = .ok r ∧
        r.path = some q ∧ q.head? = some 0 ∧ q.getLast? = some 2 ∧
        List.Chain' (fun a b => lineGraph.adj a b = true) q ∧
        (∀ x ∈ q, x ∈ lineGraph.nodes) ∧
        ∀ p1, IsPath lineGraph 0 2 p1 → q.length ≤ p1.length) :=
  ⟨by decide, by decide, by decide, by decide,
    C2_returns_shortest_valid_path lineGraph 0 2 (fun _ => MAX_ENERGY) "CSMA"
      (by decide) (by decide) (by decide) [0, 1, 2] (by decide)⟩

/-- C4: when both endpoints are nodes of the graph but no path joins
them, `simulate_routing` returns `(none, ["No path found!"])` and leaves
the energy map (and the graph) exactly as they were. -/
theorem C4_no_path_leaves_energy (G : Graph) (source sink : Nat) (energy : Nat → ℤ)
    (mac_protocol : String) (hs : source ∈ G.nodes) (ht : sink ∈ G.nodes)
    (hnp : ∀ p, ¬ IsPath G source sink p) :
    simulate_routing G source sink energy mac_protocol =
      .ok ⟨none, ["No path found!"], G, energy⟩ := by
  unfold simulate_routing shortest_path
  rw [if_pos ⟨hs, ht⟩]
  cases hfd : findDist G source sink G.nodes.length 0 with
  | none => rfl
  | some k0 =>
      obtain ⟨hreach, -, -⟩ := findDist_some G source sink G.nodes.length 0 k0 hfd
      obtain ⟨p, hp, -⟩ := reach_sound G source hs k0 sink hreach
      exact absurd hp (hnp p)

/-- C4 witness: the two-component graph reports the sentinel and keeps
the energy map. -/
theorem C4_witness :
    (0 ∈ twoIslandGraph.nodes) ∧ (1 ∈ twoIslandGraph.nodes) ∧
      (∀ p, ¬ IsPath twoIslandGraph 0 1 p) ∧
      simulate_routing twoIslandGraph 0 1 (fun _ => MAX_ENERGY) "CSMA" =
        .ok ⟨none, ["No path found!"], twoIslandGraph, fun _ => MAX_ENERGY⟩ :=
  ⟨by decide, by decide,
    no_path_of_findDist_none twoIslandGraph 0 1 (by decide) (by decide),
    C4_no_path_leaves_energy twoIslandGraph 0 1 (fun _ => MAX_ENERGY) "CSMA"
      (by decide) (by decide)
      (no_path_of_findDist_none twoIslandGraph 0 1 (by decide) (by decide))⟩

/-- C6: routing a node to itself returns the zero-hop path `[source]`
with an empty transcript and no energy change. -/
theorem C6_self_routing (G : Graph) (source : Nat) (energy : Nat → ℤ)
    (mac_protocol : String) (hs : source ∈ G.nodes) :
    simulate_routing G source source energy mac_protocol =
      .ok ⟨some [source], [], G, energy⟩ := by
  obtain ⟨m, hm⟩ : ∃ m, G.nodes.length = m + 1 := by
    have hne : G.nodes.length ≠ 0 := by
      intro h0
      rw [List.length_eq_zero] at h0
      rw [h0] at hs
      simp at hs
    exact ⟨G.nodes.length - 1, by omega⟩
  unfold simulate_routing shortest_path
  rw [if_pos ⟨hs, hs⟩, hm]
  have h0 : findDist G source source (m + 1) 0 = some 0 := by
    simp only [findDist]
    rw [if_pos (self_mem_reach G source 0)]
  rw [h0]
  rfl

/-- C6 witness: routing node 1 to itself in the demo graph. -/
theorem C6_witness :
    (1 ∈ lineGraph.nodes) ∧
      simulate_routing lineGraph 1 1 (fun _ => MAX_ENERGY) "CSMA" =
        .ok ⟨some [1], [], lineGraph, fun _ => MAX_ENERGY⟩ :=
  ⟨by decide,
    C6_self_routing lineGraph 1 (fun _ => MAX_ENERGY) "CSMA" (by decide)⟩

/-- C7 counterexample: with a source outside the node set, the core does
not return a refusal value at all — the call ends in the uncaught
`NodeNotFound` exception, so no `(path, transcript)` pair is produced. -/
theorem C7_counterexample :
    ¬ ∃ r, simulate_routing lineGraph 5 0 (fun _ => MAX_ENERGY) "CSMA" = .ok r := by
  rintro ⟨r, hr⟩
  have h : simulate_routing lineGraph 5 0 (fun _ => MAX_ENERGY) "CSMA"
      = .error (.nodeNotFound "Either source 5 or target 0 is not in G") := rfl
  rw [h] at hr
  cases hr

/-- C7 amended: when the source or the sink is not a node of the graph,
`simulate_routing` propagates `networkx`'s `NodeNotFound` exception,
whose message names the offending endpoints; it performs no energy
mutation and no out-of-bounds access, but it does not catch the error
itself — in the application the presentation layer prevents the case by
offering only graph nodes as choices. -/
theorem C7_invalid_selection (G : Graph) (source sink : Nat) (energy : Nat → ℤ)
    (mac_protocol : String) (h : source ∉ G.nodes ∨ sink ∉ G.nodes) :
    simulate_routing G source sink energy mac_protocol =
      .error (.nodeNotFound ("Either source " ++ toString source ++ " or target " ++
        toString sink ++ " is not in G")) := by
  have hnc : ¬ (source ∈ G.nodes ∧ sink ∈ G.nodes) := by
    rintro ⟨h1, h2⟩
    rcases h with h | h
    · exact h h1
    · exact h h2
  unfold simulate_routing shortest_path
  rw [if_neg hnc]

/-- C7 witness: source 5 is not among the demo graph's nodes and the
call surfaces the `NodeNotFound` error. -/
theorem C7_witness :
    ((5 ∉ lineGraph.nodes) ∨ (0 ∉ lineGraph.nodes)) ∧
      simulate_routing lineGraph 5 0 (fun _ => MAX_ENERGY) "CSMA" =
        .error (.nodeNotFound ("Either source " ++ toString 5 ++ " or target " ++
          toString 0 ++ " is not in G")) :=
  ⟨Or.inl (by decide),
    C7_invalid_selection lineGraph 5 0 (fun _ => MAX_ENERGY) "CSMA" (Or.inl (by decide))⟩

/-- C1: when a shortest source-to-sink path with `L = p.length - 1` hops
exists, one `simulate_routing` call under CSMA or TDMA returns a path of
the same hop count and deducts `L × tx_cost + L × rx_cost` in total,
where CSMA costs are `(2, 1)` and TDMA costs are the floor-halved CSMA
costs `(1, 0)`; each hop takes `tx_cost` from its sender and `rx_cost`
from its receiver. -/
theorem C1_energy_accounting (G : Graph) (source sink : Nat) (energy : Nat → ℤ)
    (mac_protocol : String)
    (hs : source ∈ G.nodes) (ht : sink ∈ G.nodes) (hN : G.nodes.Nodup)
    (p : List Nat) (hp : IsPath G source sink p)
    (hmin : ∀ p1, IsPath G source sink p1 → p.length ≤ p1.length)
    (hmac : mac_protocol = "CSMA" ∨ mac_protocol = "TDMA") :
    macCosts "CSMA" = (TRANSMISSION_COST, RECEPTION_COST) ∧
    macCosts "CSMA" = (2, 1) ∧
    macCosts "TDMA" = (TRANSMISSION_COST.fdiv 2, RECEPTION_COST.fdiv 2) ∧
    macCosts "TDMA" = (1, 0) ∧
    ∃ r q, simulate_routing G source sink energy mac_protocol = .ok r ∧
      r.path = some q ∧ q.length = p.length ∧
      (∀ n, r.energy n = energy n -
        ((hops q).map (fun x => (if n = x.1 then (macCosts mac_protocol).1 else 0) +
          (if n = x.2 then (macCosts mac_protocol).2 else 0))).sum) ∧
      (G.nodes.map (fun n => energy n - r.energy n)).sum =
        ((p.length - 1 : ℕ) : ℤ) *
          ((macCosts mac_protocol).1 + (macCosts mac_protocol).2) := by
  refine ⟨by decide, by decide, by decide, by decide, ?_⟩
  obtain ⟨q, hsp, hq, hqmin⟩ := shortest_path_spec G source sink hs ht hN hp
  have hql : q.length = p.length := le_antisymm (hqmin p hp) (hmin q hq)
  have hhopmem : ∀ x ∈ hops q, x.1 ∈ G.nodes ∧ x.2 ∈ G.nodes := by
    intro x hx
    obtain ⟨hx1, hx2⟩ := hops_mem hx
    exact ⟨hq.2.2.2.1 x.1 hx1, hq.2.2.2.1 x.2 hx2⟩
  refine ⟨_, q, simulate_routing_ok G source sink energy mac_protocol hsp, rfl, hql,
    fun n => rfl, ?_⟩
  have hsum := sum_nodes_pathDelta G hN mac_protocol (hops q) hhopmem
  calc (G.nodes.map (fun n => energy n -
          (energy n - pathDelta mac_protocol (hops q) n))).sum
      = (G.nodes.map (fun n => pathDelta mac_protocol (hops q) n)).sum := by
        refine congrArg List.sum (List.map_congr_left ?_)
        intro n _
        ring
    _ = ((hops q).length : ℤ) * ((macCosts mac_protocol).1 + (macCosts mac_protocol).2) :=
        hsum
    _ = ((p.length - 1 : ℕ) : ℤ) *
          ((macCosts mac_protocol).1 + (macCosts mac_protocol).2) := by
        rw [hops_length, hql]

/-- C1 witness: the line graph, shortest path `[0,1,2]` (two hops) under
CSMA: total deduction `2 × (2 + 1) = 6`. -/
theorem C1_witness :
    (0 ∈ lineGraph.nodes) ∧ (2 ∈ lineGraph.nodes) ∧ lineGraph.nodes.Nodup ∧
      IsPath lineGraph 0 2 [0, 1, 2] ∧
      (∀ p1, IsPath lineGraph 0 2 p1 → ([0, 1, 2] : List Nat).length ≤ p1.length) ∧
      ("CSMA" = "CSMA" ∨ "CSMA" = "TDMA") ∧
      (macCosts "CSMA" = (TRANSMISSION_COST, RECEPTION_COST) ∧
        macCosts "CSMA" = (2, 1) ∧
        macCosts "TDMA" = (TRANSMISSION_COST.fdiv 2, RECEPTION_COST.fdiv 2) ∧
        macCosts "TDMA" = (1, 0) ∧
        ∃ r q, simulate_routing lineGraph 0 2 (fun _ => MAX_ENERGY) "CSMA" = .ok r ∧
          r.path = some q ∧ q.length = ([0, 1, 2] : List Nat).length ∧
          (∀ n, r.energy n = (fun _ => MAX_ENERGY) n -
            ((hops q).map (fun x => (if n = x.1 then (macCosts "CSMA").1 else 0) +
              (if n = x.2 then (macCosts "CSMA").2 else 0))).sum) ∧
          (lineGraph.nodes.map (fun n => (fun _ => MAX_ENERGY) n - r.energy n)).sum =
            ((([0, 1, 2] : List Nat).length - 1 : ℕ) : ℤ) *
              ((macCosts "CSMA").1 + (macCosts "CSMA").2)) :=
  ⟨by decide, by decide, by decide, by decide,
    shortest_of_findDist lineGraph 0 2 [0, 1, 2] (by decide), Or.inl rfl,
    C1_energy_accounting lineGraph 0 2 (fun _ => MAX_ENERGY) "CSMA"
      (by decide) (by decide) (by decide) [0, 1, 2] (by decide)
      (shortest_of_findDist lineGraph 0 2 [0, 1, 2] (by decide)) (Or.inl rfl)⟩

/-- C8: under any policy, running the same routing request a second time
on the energy map the first call produced yields the same path and
deducts the same per-node amounts again (the call compounds; it is not
idempotent). -/
theorem C8_second_call_compounds (G : Graph) (source sink : Nat) (energy : Nat → ℤ)
    (mac_protocol : String)
    (hs : source ∈ G.nodes) (ht : sink ∈ G.nodes) (hN : G.nodes.Nodup)
    (p : List Nat) (hp : IsPath G source sink p) :
    ∃ r1 r2, simulate_routing G source sink energy mac_protocol = .ok r1 ∧
      simulate_routing G source sink r1.energy mac_protocol = .ok r2 ∧
      r2.path = r1.path ∧
      ∀ n, r1.energy n - r2.energy n = energy n - r1.energy n := by
  obtain ⟨q, hsp, -, -⟩ := shortest_path_spec G source sink hs ht hN hp
  refine ⟨_, _, simulate_routing_ok G source sink energy mac_protocol hsp,
    simulate_routing_ok G source sink _ mac_protocol hsp, rfl, ?_⟩
  intro n
  dsimp only
  ring

/-- C8 witness: the line graph twice under CSMA. -/
theorem C8_witness :
    (0 ∈ lineGraph.nodes) ∧ (2 ∈ lineGraph.nodes) ∧ lineGraph.nodes.Nodup ∧
      IsPath lineGraph 0 2 [0, 1, 2] ∧
      (∃ r1 r2, simulate_routing lineGraph 0 2 (fun _ => MAX_ENERGY) "CSMA" = .ok r1 ∧
        simulate_routing lineGraph 0 2 r1.energy "CSMA" = .ok r2 ∧
        r2.path = r1.path ∧
        ∀ n, r1.energy n - r2.energy n = (fun _ => MAX_ENERGY) n - r1.energy n) :=
  ⟨by decide, by decide, by decide, by decide,
    C8_second_call_compounds lineGraph 0 2 (fun _ => MAX_ENERGY) "CSMA"
      (by decide) (by decide) (by decide) [0, 1, 2] (by decide)⟩

/-- C9: for a `mac_protocol` value that is neither `"CSMA"` nor
`"TDMA"`, `simulate_routing` still returns the full path and the full
hop transcript but changes no node's energy. -/
theorem C9_unknown_policy_no_deduction (G : Graph) (source sink : Nat)
    (energy : Nat → ℤ) (mac_protocol : String)
    (hs : source ∈ G.nodes) (ht : sink ∈ G.nodes) (hN : G.nodes.Nodup)
    (p : List Nat) (hp : IsPath G source sink p)
    (h1 : mac_protocol ≠ "CSMA") (h2 : mac_protocol ≠ "TDMA") :
    ∃ r q, simulate_routing G source sink energy mac_protocol = .ok r ∧
      r.path = some q ∧ IsPath G source sink q ∧
      r.logs = (hops q).map (fun x => hopLog x.1 x.2) ∧
      r.logs.length = q.length - 1 ∧
      r.energy = energy := by
  obtain ⟨q, hsp, hq, -⟩ := shortest_path_spec G source sink hs ht hN hp
  refine ⟨_, q, simulate_routing_ok G source sink energy mac_protocol hsp, rfl, hq,
    rfl, ?_, ?_⟩
  · dsimp only
    rw [List.length_map, hops_length]
  · funext n
    dsimp only
    rw [pathDelta_unknown mac_protocol h1 h2 n (hops q), sub_zero]

/-- C9 witness: the line graph under the unrecognised policy `"ALOHA"`. -/
theorem C9_witness :
    (0 ∈ lineGraph.nodes) ∧ (2 ∈ lineGraph.nodes) ∧ lineGraph.nodes.Nodup ∧
      IsPath lineGraph 0 2 [0, 1, 2] ∧
      ("ALOHA" : String) ≠ "CSMA" ∧ ("ALOHA" : String) ≠ "TDMA" ∧
      (∃ r q, simulate_routing lineGraph 0 2 (fun _ => MAX_ENERGY) "ALOHA" = .ok r ∧
        r.path = some q ∧ IsPath lineGraph 0 2 q ∧
        r.logs = (hops q).map (fun x => hopLog x.1 x.2) ∧
        r.logs.length = q.length - 1 ∧
        r.energy = (fun _ => MAX_ENERGY)) :=
  ⟨by decide, by decide, by decide, by decide, by decide, by decide,
    C9_unknown_policy_no_deduction lineGraph 0 2 (fun _ => MAX_ENERGY) "ALOHA"
      (by decide) (by decide) (by decide) [0, 1, 2] (by decide)
      (by decide) (by decide)⟩

/-- C10: a successful CSMA or TDMA routing call leaves the graph
untouched, leaves the energy of every node not on the returned path
unchanged, and never increases any node's energy. -/
theorem C10_frame_conditions (G : Graph) (source sink : Nat) (energy : Nat → ℤ)
    (mac_protocol : String)
    (hs : source ∈ G.nodes) (ht : sink ∈ G.nodes) (hN : G.nodes.Nodup)
    (p : List Nat) (hp : IsPath G source sink p)
    (hmac : mac_protocol = "CSMA" ∨ mac_protocol = "TDMA") :
    ∃ r q, simulate_routing G source sink energy mac_protocol = .ok r ∧
      r.path = some q ∧ r.G = G ∧
      (∀ n, n ∉ q → r.energy n = energy n) ∧
      ∀ n, r.energy n ≤ energy n := by
  obtain ⟨q, hsp, -, -⟩ := shortest_path_spec G source sink hs ht hN hp
  refine ⟨_, q, simulate_routing_ok G source sink energy mac_protocol hsp, rfl, rfl,
    ?_, ?_⟩
  · intro n hn
    dsimp only
    rw [pathDelta_eq_zero mac_protocol n (hops q) ?_, sub_zero]
    intro x hx
    obtain ⟨hx1, hx2⟩ := hops_mem hx
    constructor
    · rintro rfl
      exact hn hx1
    · rintro rfl
      exact hn hx2
  · intro n
    dsimp only
    exact sub_le_self _ (pathDelta_nonneg mac_protocol (hops q) n)

/-- C10 witness: the line graph under CSMA. -/
theorem C10_witness :
    (0 ∈ lineGraph.nodes) ∧ (2 ∈ lineGraph.nodes) ∧ lineGraph.nodes.Nodup ∧
      IsPath lineGraph 0 2 [0, 1, 2] ∧
      ("CSMA" = "CSMA" ∨ "CSMA" = "TDMA") ∧
      (∃ r q, simulate_routing lineGraph 0 2 (fun _ => MAX_ENERGY) "CSMA" = .ok r ∧
        r.path = some q ∧ r.G = lineGraph ∧
        (∀ n, n ∉ q → r.energy n = (fun _ => MAX_ENERGY) n) ∧
        ∀ n, r.energy n ≤ (fun _ => MAX_ENERGY) n) :=
  ⟨by decide, by decide, by decide, by decide, Or.inl rfl,
    C10_frame_conditions lineGraph 0 2 (fun _ => MAX_ENERGY) "CSMA"
      (by decide) (by decide) (by decide) [0, 1, 2] (by decide) (Or.inl rfl)⟩

/-- C3: for every positions map and `tx_range ≥ 0`, `connect_nodes` puts
an edge between member nodes `i ≠ j` iff the Euclidean distance of their
positions is `≤ tx_range`; the adjacency is symmetric and loop-free
(an isolated node simply has no neighbours — the construction is total
and raises nothing). -/
theorem C3_connect_nodes_geometry (keys : List Nat) (positions : Nat → Pos)
    (tx_range : ℚ) (h0 : 0 ≤ tx_range) :
    (∀ i j, i ∈ keys → j ∈ keys → i ≠ j →
      ((connect_nodes keys positions tx_range).adj i j = true ↔
        Real.sqrt (euclidean_distance_sq (positions i) (positions j) : ℝ)
          ≤ (tx_range : ℝ))) ∧
    (∀ i j, (connect_nodes keys positions tx_range).adj i j
        = (connect_nodes keys positions tx_range).adj j i) ∧
    (∀ i, (connect_nodes keys positions tx_range).adj i i = false) := by
  refine ⟨?_, ?_, ?_⟩
  · intro i j hi hj hij
    have hd2 : (0 : ℝ) ≤ (euclidean_distance_sq (positions i) (positions j) : ℝ) := by
      exact_mod_cast euclidean_distance_sq_nonneg (positions i) (positions j)
    have hr : (0 : ℝ) ≤ (tx_range : ℝ) := by exact_mod_cast h0
    rw [sqrt_le_iff_sq_le hd2 hr]
    unfold connect_nodes
    simp only [Bool.and_eq_true, decide_eq_true_eq]
    constructor
    · rintro ⟨⟨⟨⟨-, -⟩, -⟩, -⟩, hd⟩
      exact_mod_cast hd
    · intro hle
      exact ⟨⟨⟨⟨hi, hj⟩, hij⟩, h0⟩, by exact_mod_cast hle⟩
  · intro i j
    cases hij : (connect_nodes keys positions tx_range).adj i j with
    | true => exact (connect_adj_imp keys positions tx_range hij).symm
    | false =>
        cases hji : (connect_nodes keys positions tx_range).adj j i with
        | false => rfl
        | true =>
            exact absurd (connect_adj_imp keys positions tx_range hji)
              (by rw [hij]; simp)
  · intro i
    unfold connect_nodes
    simp

/-- C3 witness: two nodes with transmission range 0. -/
theorem C3_witness :
    ((0 : ℚ) ≤ (0 : ℚ)) ∧
      ((∀ i j, i ∈ ([0, 1] : List Nat) → j ∈ ([0, 1] : List Nat) → i ≠ j →
          ((connect_nodes [0, 1] demoPositions (0 : ℚ)).adj i j = true ↔
            Real.sqrt (euclidean_distance_sq (demoPositions i) (demoPositions j) : ℝ)
              ≤ ((0 : ℚ) : ℝ))) ∧
        (∀ i j, (connect_nodes [0, 1] demoPositions (0 : ℚ)).adj i j
            = (connect_nodes [0, 1] demoPositions (0 : ℚ)).adj j i) ∧
        (∀ i, (connect_nodes [0, 1] demoPositions (0 : ℚ)).adj i i = false)) :=
  ⟨le_refl 0, C3_connect_nodes_geometry [0, 1] demoPositions 0 (le_refl 0)⟩

/-- C5: the concrete 3-node line at (0,0), (1,0), (2,0) with range 1.5
and all energies 100: routing 0 → 2 under CSMA yields path `[0,1,2]`,
transcript `["0 → 1", "1 → 2"]`, final energies (98, 97, 99); the same
routing under TDMA leaves (99, 99, 100). -/
theorem C5_concrete_scenario :
    ∃ rc rt,
      simulate_routing demoGraph 0 2 (fun _ => MAX_ENERGY) "CSMA" = .ok rc ∧
      rc.path = some [0, 1, 2] ∧ rc.logs = ["0 → 1", "1 → 2"] ∧
      rc.energy 0 = 98 ∧ rc.energy 1 = 97 ∧ rc.energy 2 = 99 ∧
      simulate_routing demoGraph 0 2 (fun _ => MAX_ENERGY) "TDMA" = .ok rt ∧
      rt.path = some [0, 1, 2] ∧ rt.logs = ["0 → 1", "1 → 2"] ∧
      rt.energy 0 = 99 ∧ rt.energy 1 = 99 ∧ rt.energy 2 = 100 := by
  rw [demoGraph_eq_lineGraph]
  exact ⟨_, _, rfl, rfl, rfl, rfl, rfl, rfl, rfl, rfl, rfl, rfl, rfl, rfl⟩

end WSN
